import Mathlib

/-!
# Verification of the diagnostic/event-log parser (`parseErrorMessage`)

Shallow embedding of `parseErrorMessage` from the repository's error-parsing
module.  The TypeScript function splits the message on `'\n'`, keeps the first
line verbatim as `mainError`, and scans the remaining lines with the regex

  `^\s*(\d+)\s*:\s*\[([^\]]+)\]\s*(?:contract:([^\s,]+),\s*)?topics:\[(.+?)\],\s*data:(.+)$`

maintaining a one-slot "current entry" buffer that is flushed into `eventLog`
when a later line matches, or after the loop.

The embedding works on `List Char`.  JavaScript regex semantics are modelled
exactly for this pattern: every quantifier except the lazy `(.+?)` ranges over
a character class disjoint from the literal that follows it, so those parts
are deterministic (a greedy run can never give back a character that the next
literal would accept); the lazy `(.+?)` is modelled by an explicit search for
the shortest group length whose continuation `\],\s*data:(.+)$` succeeds.
`\s` is modelled by the ASCII whitespace characters of the JavaScript class
(the Unicode members cannot occur in the claims' inputs) and `.` excludes the
line terminators `'\n'` and `'\r'`.  `Number.parseInt` on the digit group is
modelled as exact base-10 evaluation into `Nat`.
-/

namespace Laina

/-- The ASCII members of the JavaScript `\s` class (also used by `trim`). -/
def isJsWS (c : Char) : Bool :=
  c = ' ' || c = '\t' || c = '\n' || c = '\r' || c = '\x0b' || c = '\x0c'

/-- The JavaScript `\d` class. -/
def isDigitC (c : Char) : Bool :=
  '0' ≤ c && c ≤ '9'

/-- The JavaScript `.` (no `s` flag): anything but a line terminator. -/
def dotC (c : Char) : Bool :=
  !(c = '\n' || c = '\r')

/-- `String.prototype.trim`: strip leading and trailing whitespace. -/
def trimList (l : List Char) : List Char :=
  ((l.dropWhile isJsWS).reverse.dropWhile isJsWS).reverse

/-- `message.split('\n')`: always at least one (possibly empty) line. -/
def splitNl : List Char → List (List Char)
  | [] => [[]]
  | c :: rest =>
    if c = '\n' then [] :: splitNl rest
    else
      match splitNl rest with
      | h :: t => (c :: h) :: t
      | [] => [[c]]

/-- Inverse of `splitNl`: join lines with `'\n'` (used to state line-insertion
claims about whole input strings). -/
def joinNl : List (List Char) → List Char
  | [] => []
  | [l] => l
  | l :: rest => l ++ '\n' :: joinNl rest

/-- Drop a literal from the front, or fail.  Models a literal in the regex. -/
def dropPre : List Char → List Char → Option (List Char)
  | [], l => some l
  | _ :: _, [] => none
  | p :: ps, c :: cs => if c = p then dropPre ps cs else none

/-- An event-log entry of the parsed error.  The source's `type` annotation is
a compile-time cast (`eventMatch[2] as EventLogEntry['type']`) with no runtime
check, so at runtime the field holds the raw matched label: it is modelled as
`String`.  `index` is `number` holding `Number.parseInt` of a digit run,
modelled as `Nat`; `contract : string | undefined` is `Option String`. -/
structure EventLogEntry where
  index : Nat
  type : String
  contract : Option String
  topics : List String
  data : String
  deriving DecidableEq, Repr

/-- The four `EventType` labels declared by the source's union type. -/
def eventTypeLabels : List String :=
  ["Diagnostic Event", "Failed Diagnostic Event (not emitted)",
   "Failed Contract Event (not emitted)", "Contract Event"]

/-- Result of `parseErrorMessage`. -/
structure ParsedError where
  mainError : String
  eventLog : List EventLogEntry
  deriving DecidableEq, Repr

/-- The five capture groups of the entry regex (`g3` is the optional
`contract` group). -/
structure EntryGroups where
  g1 : List Char
  g2 : List Char
  g3 : Option (List Char)
  g4 : List Char
  g5 : List Char
  deriving DecidableEq, Repr

/-- The continuation `\],\s*data:(.+)$` after the lazy topics group: expects
`],`, then whitespace, then `data:`, then a nonempty line-terminator-free
remainder (the `data` group). -/
def checkAfter (l : List Char) : Option (List Char) :=
  match l with
  | ']' :: ',' :: r =>
    match dropPre "data:".toList (r.dropWhile isJsWS) with
    | some d => if d ≠ [] ∧ d.all dotC then some d else none
    | none => none
  | _ => none

/-- The lazy group `(.+?)` followed by `\],\s*data:(.+)$`: grow the group one
character at a time (shortest match wins, as in the regex engine) until the
continuation succeeds; each group character must be matched by `.`. -/
def lazySplit (acc : List Char) : List Char → Option (List Char × List Char)
  | [] => none
  | c :: rest =>
    if dotC c then
      match checkAfter rest with
      | some d => some (acc ++ [c], d)
      | none => lazySplit (acc ++ [c]) rest
    else none

/-- The deterministic front of the regex,
`^\s*(\d+)\s*:\s*\[([^\]]+)\]\s*(?:contract:([^\s,]+),\s*)?topics:\[`,
returning the digit group, the label group, the optional contract group and
the rest of the line after `topics:[`.  The optional group is attempted first,
exactly as the engine does; when it fails, falling back to matching
`topics:\[` at the same position can only succeed if the text did not start
with `contract:`, which the `match` on `dropPre` reproduces. -/
def matchFront (l : List Char) : Option (List Char × List Char × Option (List Char) × List Char) :=
  let r0 := l.dropWhile isJsWS
  let d := r0.takeWhile isDigitC
  if d = [] then none else
  match (r0.dropWhile isDigitC).dropWhile isJsWS with
  | ':' :: r2 =>
    match r2.dropWhile isJsWS with
    | '[' :: r3 =>
      let t := r3.takeWhile (fun c => c ≠ ']')
      if t = [] then none else
      match r3.dropWhile (fun c => c ≠ ']') with
      | ']' :: r5 =>
        let r6 := r5.dropWhile isJsWS
        match dropPre "contract:".toList r6 with
        | some r7 =>
          let c := r7.takeWhile (fun ch => !isJsWS ch && ch ≠ ',')
          if c = [] then none else
          match r7.dropWhile (fun ch => !isJsWS ch && ch ≠ ',') with
          | ',' :: r9 =>
            match dropPre "topics:[".toList (r9.dropWhile isJsWS) with
            | some r11 => some (d, t, some c, r11)
            | none => none
          | _ => none
        | none =>
          match dropPre "topics:[".toList r6 with
          | some r11 => some (d, t, none, r11)
          | none => none
      | _ => none
    | _ => none
  | _ => none

/-- `line.match(/^\s*(\d+)\s*:\s*\[([^\]]+)\]\s*(?:contract:([^\s,]+),\s*)?topics:\[(.+?)\],\s*data:(.+)$/)`:
the five capture groups, or `none` when the line does not match. -/
def matchEventLine (l : List Char) : Option EntryGroups :=
  match matchFront l with
  | some (d, t, c, r) =>
    match lazySplit [] r with
    | some (tb, db) => some ⟨d, t, c, tb, db⟩
    | none => none
  | none => none

/-- `Number.parseInt` on a run of decimal digits, as an exact `Nat`. -/
def digitsToNat (l : List Char) : Nat :=
  l.foldl (fun n c => n * 10 + (c.toNat - '0'.toNat)) 0

/-- The bracket-aware topic splitter from the source: scan `topicsStr`,
incrementing the counter on `'['` and decrementing on `']'`; a comma at
counter 0 pushes the trimmed buffer (even when empty), any other character is
appended to the buffer; after the scan a nonempty buffer is pushed trimmed. -/
def topicSplit : List Char → Int → List Char → List String → List String
  | [], _, cur, acc =>
    if cur = [] then acc else acc ++ [String.mk (trimList cur)]
  | c :: rest, bc, cur, acc =>
    let bc1 := if c = '[' then bc + 1 else bc
    let bc2 := if c = ']' then bc1 - 1 else bc1
    if c = ',' ∧ bc2 = 0 then
      topicSplit rest bc2 [] (acc ++ [String.mk (trimList cur)])
    else
      topicSplit rest bc2 (cur ++ [c]) acc

/-- Build the entry from the match groups, as the loop body does:
`parseInt` on group 1, the raw label of group 2, `eventMatch[3] || undefined`
for the contract, the bracket-aware split of group 4, and group 5 trimmed. -/
def buildEntry (g : EntryGroups) : EventLogEntry :=
  { index := digitsToNat g.g1
    type := String.mk g.g2
    contract :=
      match g.g3 with
      | some c => if c = [] then none else some (String.mk c)
      | none => none
    topics := topicSplit g.g4 0 [] []
    data := String.mk (trimList g.g5) }

/-- The literal header text skipped by the loop. -/
def headerChars : List Char :=
  "Event log (newest first):".toList

/-- The body-line loop of `parseErrorMessage`: `cur` is the one-slot
`currentEntry` buffer (`Partial<EventLogEntry>` with `index` set iff `some`),
`acc` the accumulated `eventLog`.  Each line is trimmed; empty lines and the
header are skipped; a regex match whose groups 1, 2, 4, 5 are truthy flushes
the previous entry and becomes the new current entry; after the loop the
current entry, if any, is flushed. -/
def processLines : List (List Char) → Option EventLogEntry → List EventLogEntry → List EventLogEntry
  | [], cur, acc =>
    match cur with
    | some e => acc ++ [e]
    | none => acc
  | l :: rest, cur, acc =>
    let line := trimList l
    if line = [] ∨ line = headerChars then
      processLines rest cur acc
    else
      match matchEventLine line with
      | some g =>
        if g.g1 ≠ [] ∧ g.g2 ≠ [] ∧ g.g4 ≠ [] ∧ g.g5 ≠ [] then
          processLines rest (some (buildEntry g))
            (match cur with
             | some p => acc ++ [p]
             | none => acc)
        else
          processLines rest cur acc
      | none => processLines rest cur acc

/-- `parseErrorMessage`: split on `'\n'`, take `lines[0] || ''` as
`mainError`, run the loop over the remaining lines. -/
def parseErrorMessage (message : String) : ParsedError :=
  let lines := splitNl message.toList
  let mainError :=
    match lines with
    | [] => ""
    | l :: _ => if l = [] then "" else String.mk l
  { mainError := mainError
    eventLog := processLines (lines.drop 1) none [] }

/-- The match groups of the body lines of an input, in input order: each line
after the first is trimmed and run against the entry regex. -/
def bodyMatches (s : String) : List EntryGroups :=
  ((splitNl s.toList).drop 1).filterMap (fun l => matchEventLine (trimList l))

/-- Insert an element before position `n` of a list (at the end if `n`
exceeds the length); used to state line-insertion claims. -/
def insertAt (n : Nat) (x : α) (xs : List α) : List α :=
  xs.take n ++ x :: xs.drop n

/-- A body line that the loop ignores: blank after trimming, exactly the
header text, or not matching the entry regex. -/
def skippableLine (l : List Char) : Prop :=
  trimList l = [] ∨ trimList l = headerChars ∨ matchEventLine (trimList l) = none

instance (l : List Char) : Decidable (skippableLine l) :=
  inferInstanceAs (Decidable (_ ∨ _ ∨ _))

/-! ## Helper lemmas -/

theorem checkAfter_some {r d : List Char} (h : checkAfter r = some d) : d ≠ [] := by
  unfold checkAfter at h
  split at h
  · split at h
    · split at h
      · cases h
        simp_all
      · cases h
    · cases h
  · cases h

theorem lazySplit_some {l : List Char} :
    ∀ {acc tb db : List Char}, lazySplit acc l = some (tb, db) →
      (∃ u, u ≠ [] ∧ tb = acc ++ u) ∧ db ≠ [] := by
  induction l with
  | nil => intro acc tb db h; simp [lazySplit] at h
  | cons c rest ih =>
    intro acc tb db h
    simp only [lazySplit] at h
    split at h
    · split at h
      next d hca =>
        cases h
        exact ⟨⟨[c], by simp, rfl⟩, checkAfter_some hca⟩
      next hca =>
        obtain ⟨⟨u, hu, htb⟩, hdb⟩ := ih h
        exact ⟨⟨c :: u, by simp, by simp [htb]⟩, hdb⟩
    · cases h

theorem matchFront_some {l d t : List Char} {c : Option (List Char)} {r : List Char}
    (h : matchFront l = some (d, t, c, r)) :
    d ≠ [] ∧ t ≠ [] ∧
      ∀ cc, c = some cc → cc ≠ [] ∧ ∀ ch ∈ cc, isJsWS ch = false ∧ ch ≠ ',' := by
  simp only [matchFront] at h
  split at h
  · cases h
  next hd =>
    split at h
    case h_2 => cases h
    next r2 =>
      split at h
      case h_2 => cases h
      next r3 =>
        split at h
        · cases h
        next ht =>
          split at h
          case h_2 => cases h
          next r5 =>
            split at h
            next r7 hc7 =>
              split at h
              · cases h
              next hcne =>
                split at h
                case h_2 => cases h
                next r9 =>
                  split at h
                  case h_2 => cases h
                  next r11 h11 =>
                    cases h
                    refine ⟨hd, ht, ?_⟩
                    rintro cc rfl2
                    cases rfl2
                    refine ⟨hcne, fun ch hch => ?_⟩
                    have hp := List.mem_takeWhile_imp hch
                    simp only [Bool.and_eq_true, Bool.not_eq_true',
                      decide_eq_true_eq] at hp
                    exact hp
            next hc7 =>
              split at h
              case h_2 => cases h
              next r11 h11 =>
                cases h
                exact ⟨hd, ht, fun cc hcc => by cases hcc⟩

theorem matchEventLine_some {l : List Char} {g : EntryGroups}
    (h : matchEventLine l = some g) :
    g.g1 ≠ [] ∧ g.g2 ≠ [] ∧ g.g4 ≠ [] ∧ g.g5 ≠ [] ∧
      ∀ cc, g.g3 = some cc → cc ≠ [] ∧ ∀ ch ∈ cc, isJsWS ch = false ∧ ch ≠ ',' := by
  unfold matchEventLine at h
  split at h
  next d t c r hf =>
    split at h
    next tb db hl =>
      cases h
      obtain ⟨hd, ht, hc⟩ := matchFront_some hf
      obtain ⟨⟨u, hu, htb⟩, hdb⟩ := lazySplit_some hl
      refine ⟨hd, ht, ?_, hdb, hc⟩
      simpa [htb] using hu
    next => cases h
  next => cases h

theorem matchEventLine_nil : matchEventLine [] = none := rfl

theorem matchEventLine_header : matchEventLine headerChars = none := by decide

theorem processLines_eq (ls : List (List Char)) :
    ∀ (cur : Option EventLogEntry) (acc : List EventLogEntry),
      processLines ls cur acc
        = acc ++ cur.toList
            ++ ls.filterMap (fun l => (matchEventLine (trimList l)).map buildEntry) := by
  induction ls with
  | nil =>
    intro cur acc
    cases cur <;> simp [processLines, Option.toList]
  | cons l rest ih =>
    intro cur acc
    by_cases hskip : trimList l = [] ∨ trimList l = headerChars
    · have hnone : matchEventLine (trimList l) = none := by
        rcases hskip with h | h <;> rw [h]
        · exact matchEventLine_nil
        · exact matchEventLine_header
      rw [show processLines (l :: rest) cur acc = processLines rest cur acc from by
            simp [processLines, hskip]]
      rw [ih cur acc, List.filterMap_cons, hnone]
      simp
    · cases hm : matchEventLine (trimList l) with
      | none =>
        rw [show processLines (l :: rest) cur acc = processLines rest cur acc from by
              simp [processLines, hskip, hm]]
        rw [ih cur acc, List.filterMap_cons, hm]
        simp
      | some g =>
        obtain ⟨h1, h2, h4, h5, _⟩ := matchEventLine_some hm
        rw [show processLines (l :: rest) cur acc
              = processLines rest (some (buildEntry g)) (acc ++ cur.toList) from by
            cases cur <;> simp [processLines, hskip, hm, h1, h2, h4, h5, Option.toList]]
        rw [ih, List.filterMap_cons, hm]
        simp [Option.toList, Option.map_some]

theorem parseErrorMessage_eventLog (s : String) :
    (parseErrorMessage s).eventLog = (bodyMatches s).map buildEntry := by
  unfold parseErrorMessage bodyMatches
  simp only [processLines_eq, Option.toList, List.nil_append]
  rw [List.map_filterMap]

theorem splitNl_ne_nil (l : List Char) : splitNl l ≠ [] := by
  cases l with
  | nil => simp [splitNl]
  | cons c rest =>
    simp only [splitNl]
    split
    · simp
    · split
      · simp
      · simp

theorem splitNl_no_newline {l : List Char} (h : '\n' ∉ l) : splitNl l = [l] := by
  induction l with
  | nil => rfl
  | cons c rest ih =>
    have hc : c ≠ '\n' := fun hcc => h (hcc ▸ List.mem_cons_self c rest)
    have hr : '\n' ∉ rest := fun hm => h (List.mem_cons_of_mem c hm)
    simp [splitNl, hc, ih hr]

theorem splitNl_append_newline {l : List Char} (m : List Char) (h : '\n' ∉ l) :
    splitNl (l ++ '\n' :: m) = l :: splitNl m := by
  induction l with
  | nil => simp [splitNl]
  | cons c rest ih =>
    have hc : c ≠ '\n' := fun hcc => h (hcc ▸ List.mem_cons_self c rest)
    have hr : '\n' ∉ rest := fun hm => h (List.mem_cons_of_mem c hm)
    have heq := ih hr
    simp only [List.cons_append, splitNl, hc, if_false, List.append_eq]
    rw [heq]

theorem splitNl_mem_no_newline : ∀ (l : List Char), ∀ p ∈ splitNl l, '\n' ∉ p := by
  intro l
  induction l with
  | nil =>
    intro p hp
    simp [splitNl] at hp
    simp [hp]
  | cons c rest ih =>
    intro p hp
    by_cases hc : c = '\n'
    · subst hc
      have hp2 : p = [] ∨ p ∈ splitNl rest := by simpa [splitNl] using hp
      rcases hp2 with rfl | hp2
      · simp
      · exact ih p hp2
    · simp only [splitNl, hc, if_false] at hp
      rcases List.exists_cons_of_ne_nil (splitNl_ne_nil rest) with ⟨h, t, hsp⟩
      rw [hsp] at hp
      rcases List.mem_cons.mp hp with rfl | hp2
      · intro hmem
        rcases List.mem_cons.mp hmem with hne | hmem2
        · exact hc hne.symm
        · exact ih h (hsp ▸ List.mem_cons_self h t) hmem2
      · exact ih p (hsp ▸ List.mem_cons_of_mem h hp2)

theorem splitNl_joinNl : ∀ (ls : List (List Char)), ls ≠ [] →
    (∀ p ∈ ls, '\n' ∉ p) → splitNl (joinNl ls) = ls := by
  intro ls
  induction ls with
  | nil => intro h; exact absurd rfl h
  | cons l rest ih =>
    intro _ hmem
    cases rest with
    | nil =>
      simp only [joinNl]
      exact splitNl_no_newline (hmem l (List.mem_cons_self l []))
    | cons l2 rest2 =>
      have h1 : '\n' ∉ l := hmem l (List.mem_cons_self _ _)
      have h2 : ∀ p ∈ l2 :: rest2, '\n' ∉ p := fun p hp =>
        hmem p (List.mem_cons_of_mem _ hp)
      simp only [joinNl]
      rw [splitNl_append_newline _ h1, ih (by simp) h2]

theorem splitNl_head (l : List Char) :
    ∃ t, splitNl l = (l.takeWhile (fun c => c ≠ '\n')) :: t := by
  induction l with
  | nil => exact ⟨[], rfl⟩
  | cons c rest ih =>
    by_cases hc : c = '\n'
    · subst hc
      refine ⟨splitNl rest, ?_⟩
      simp [splitNl, List.takeWhile_cons]
    · obtain ⟨t, ht⟩ := ih
      refine ⟨t, ?_⟩
      simp [splitNl, hc, ht, List.takeWhile_cons]

theorem parseErrorMessage_mainError (s : String) :
    (parseErrorMessage s).mainError
      = String.mk (s.toList.takeWhile (fun c => c ≠ '\n')) := by
  obtain ⟨t, ht⟩ := splitNl_head s.toList
  simp only [parseErrorMessage, ht]
  by_cases h0 : s.toList.takeWhile (fun c => c ≠ '\n') = []
  · rw [if_pos h0, h0]
  · rw [if_neg h0]

/-! ## Claims -/

/-- C1: for every input string — including the empty string, pure-whitespace
strings, and arbitrarily malformed log lines — `parseErrorMessage` terminates
and returns a `ParsedError` value (the embedding is a total function, so no
exception is possible); in the worst case the returned `ParsedError` has an
empty `eventLog`, as the empty, whitespace-only, and malformed examples show. -/
theorem parse_total_worst_case_empty_log :
    (∀ s : String, ∃ r : ParsedError, parseErrorMessage s = r) ∧
    (parseErrorMessage "").eventLog = [] ∧
    (parseErrorMessage "  \t  ").eventLog = [] ∧
    (parseErrorMessage "err\n \t \n]][[garbage, data: topics:[x\n12345").eventLog = [] := by
  refine ⟨fun s => ⟨parseErrorMessage s, rfl⟩, by decide, by decide, by decide⟩

/-- C2: when the body lines matching the entry grammar carry non-decreasing
declared indices, `eventLog` has one entry per matching body line (so its
length is the count of matching lines), the entries are exactly the matches
built in input order — each matched line contributes exactly one entry,
committed when a later line matches or at end of input — and
`eventLog[i].index` is non-decreasing in `i`. -/
theorem eventLog_complete_ordered_monotone (s : String)
    (h : List.Chain' (fun a b => a ≤ b)
      ((bodyMatches s).map (fun g => digitsToNat g.g1))) :
    (parseErrorMessage s).eventLog.length = (bodyMatches s).length ∧
    (parseErrorMessage s).eventLog = (bodyMatches s).map buildEntry ∧
    List.Chain' (fun a b => a ≤ b)
      ((parseErrorMessage s).eventLog.map EventLogEntry.index) := by
  have he := parseErrorMessage_eventLog s
  refine ⟨by rw [he, List.length_map], he, ?_⟩
  rw [he, List.map_map]
  exact h

theorem eventLog_complete_ordered_monotone_witness :
    List.Chain' (fun a b => a ≤ b)
      ((bodyMatches "e\n1: [Contract Event] topics:[a], data:x\n2: [Diagnostic Event] topics:[b], data:y").map
        (fun g => digitsToNat g.g1)) ∧
    (parseErrorMessage "e\n1: [Contract Event] topics:[a], data:x\n2: [Diagnostic Event] topics:[b], data:y").eventLog.length
      = 2 := by
  have hlist : (bodyMatches "e\n1: [Contract Event] topics:[a], data:x\n2: [Diagnostic Event] topics:[b], data:y").map
      (fun g => digitsToNat g.g1) = [1, 2] := by decide
  have hch : List.Chain' (fun a b => a ≤ b)
      ((bodyMatches "e\n1: [Contract Event] topics:[a], data:x\n2: [Diagnostic Event] topics:[b], data:y").map
        (fun g => digitsToNat g.g1)) := by
    rw [hlist]
    exact List.chain'_cons.mpr ⟨by norm_num, List.chain'_singleton 2⟩
  refine ⟨hch, ?_⟩
  rw [(eventLog_complete_ordered_monotone _ hch).1]
  decide

/-- C3 (counterexample): it is not the case that every entry's `type` lies in
the fixed four-label set — the bracketed label is NOT validated before an
entry is produced: the unknown label `Bogus` yields an entry with
`type = "Bogus"`. -/
theorem type_not_validated_cex :
    ¬ (∀ s : String, ∀ e ∈ (parseErrorMessage s).eventLog,
        e.type ∈ eventTypeLabels) := by
  intro hall
  have hmem : (⟨1, "Bogus", none, ["a"], "b"⟩ : EventLogEntry)
      ∈ (parseErrorMessage "e\n1: [Bogus] topics:[a], data:b").eventLog := by
    decide
  have hin := hall "e\n1: [Bogus] topics:[a], data:b" _ hmem
  exact absurd hin (by decide)

/-- C3 (amended): for every input string, every entry's `type` equals the
bracketed label matched verbatim from its line; the label is carried over
as matched, with no validation against the fixed set of four labels. -/
theorem type_is_raw_label (s : String) :
    (parseErrorMessage s).eventLog.map EventLogEntry.type
      = (bodyMatches s).map (fun g => String.mk g.g2) := by
  rw [parseErrorMessage_eventLog, List.map_map]
  rfl

/-- C4: the topic splitter splits on commas only at bracket depth 0, so a
comma inside a bracketed group never separates topics: the topics body
`[Accrual], "updated"` yields exactly `["[Accrual]", "\"updated\""]`, both
through the splitter directly and through a full parse of a line carrying
that topics body. -/
theorem topics_nested_bracket_not_split :
    topicSplit ("[Accrual], \"updated\"".toList) 0 [] []
      = ["[Accrual]", "\"updated\""] ∧
    (parseErrorMessage "err\n9: [Contract Event] topics:[[Accrual], \"updated\"], data:10000260").eventLog.map
      EventLogEntry.topics = [["[Accrual]", "\"updated\""]] := by
  exact ⟨by decide, by decide⟩

/-- C5: commas nested only in parentheses are not protected (the depth
counter tracks only `[` and `]`): the topics body
`error, Error(WasmVm, InvalidAction)` yields exactly three topics
`["error", "Error(WasmVm", "InvalidAction)"]`, both through the splitter
directly and through a full parse of a line carrying that topics body. -/
theorem topics_paren_comma_splits :
    topicSplit ("error, Error(WasmVm, InvalidAction)".toList) 0 [] []
      = ["error", "Error(WasmVm", "InvalidAction)"] ∧
    (parseErrorMessage "err\n0: [Diagnostic Event] contract:MOCK_CONTRACT_A, topics:[error, Error(WasmVm, InvalidAction)], data:13793").eventLog.map
      EventLogEntry.topics = [["error", "Error(WasmVm", "InvalidAction)"]] := by
  exact ⟨by decide, by decide⟩

/-- C6: for every line matched by the entry grammar, an absent optional
`contract:` group yields `contract = none` (not an empty string), and a
matched group `contract:X,` — where `X` is forced by the grammar to be a
nonempty run of non-whitespace, non-comma characters — yields
`contract = some X`. -/
theorem contract_absent_or_token (l : List Char) (g : EntryGroups)
    (h : matchEventLine l = some g) :
    (g.g3 = none → (buildEntry g).contract = none) ∧
    (∀ c, g.g3 = some c →
      c ≠ [] ∧ (∀ ch ∈ c, isJsWS ch = false ∧ ch ≠ ',') ∧
      (buildEntry g).contract = some (String.mk c)) := by
  obtain ⟨-, -, -, -, hc⟩ := matchEventLine_some h
  constructor
  · intro h3
    simp [buildEntry, h3]
  · intro c h3
    obtain ⟨hne, hall⟩ := hc c h3
    exact ⟨hne, hall, by simp [buildEntry, h3, hne]⟩

theorem contract_absent_or_token_witness :
    matchEventLine ("2: [Contract Event] contract:CA, topics:[t], data:d".toList)
      = some ⟨['2'], "Contract Event".toList, some ['C', 'A'], ['t'], ['d']⟩ ∧
    (buildEntry ⟨['2'], "Contract Event".toList, some ['C', 'A'], ['t'], ['d']⟩).contract
      = some "CA" ∧
    matchEventLine ("3: [Contract Event] topics:[t], data:d".toList)
      = some ⟨['3'], "Contract Event".toList, none, ['t'], ['d']⟩ ∧
    (buildEntry ⟨['3'], "Contract Event".toList, none, ['t'], ['d']⟩).contract
      = none := by
  have h1 : matchEventLine ("2: [Contract Event] contract:CA, topics:[t], data:d".toList)
      = some ⟨['2'], "Contract Event".toList, some ['C', 'A'], ['t'], ['d']⟩ := by decide
  have h2 : matchEventLine ("3: [Contract Event] topics:[t], data:d".toList)
      = some ⟨['3'], "Contract Event".toList, none, ['t'], ['d']⟩ := by decide
  refine ⟨h1, ?_, h2, ?_⟩
  · exact ((contract_absent_or_token _ _ h1).2 ['C', 'A'] rfl).2.2
  · exact (contract_absent_or_token _ _ h2).1 rfl

/-- C7: `parseErrorMessage ""` is `{ mainError := "", eventLog := [] }`; every
newline-free input parses to itself as `mainError` (verbatim, untrimmed) with
an empty `eventLog`; and for every input, `mainError` is the first line
verbatim (the characters before the first newline). -/
theorem mainError_is_first_line_verbatim :
    parseErrorMessage "" = ⟨"", []⟩ ∧
    (∀ s : String, '\n' ∉ s.toList → parseErrorMessage s = ⟨s, []⟩) ∧
    (∀ s : String, (parseErrorMessage s).mainError
      = String.mk (s.toList.takeWhile (fun c => c ≠ '\n'))) := by
  refine ⟨by decide, ?_, parseErrorMessage_mainError⟩
  intro s h
  have hs := splitNl_no_newline h
  simp only [parseErrorMessage, hs, List.drop_succ_cons, List.drop_nil]
  by_cases h0 : s.toList = []
  · rw [if_pos h0]
    have hse : s = "" := String.ext h0
    rw [hse]
    rfl
  · rw [if_neg h0]
    have hse : String.mk s.toList = s := String.ext rfl
    rw [hse]
    rfl

theorem mainError_is_first_line_verbatim_witness :
    '\n' ∉ ("abc def" : String).toList ∧
    parseErrorMessage "abc def" = ⟨"abc def", []⟩ := by
  exact ⟨by decide, mainError_is_first_line_verbatim.2.1 "abc def" (by decide)⟩

/-- C8: inserting a newline-free body line that is blank after trimming,
exactly the header text, or not matching the entry grammar, at any position
after the first line, leaves the returned `ParsedError` unchanged (such lines
have no effect on state and do not abort parsing of later lines); removal of
such a line is the inverse reading of the same equation. -/
theorem skippable_line_insertion_invariant (s : String) (n : Nat) (l : List Char)
    (hn : 1 ≤ n) (hnl : '\n' ∉ l) (hl : skippableLine l) :
    parseErrorMessage (String.mk (joinNl (insertAt n l (splitNl s.toList))))
      = parseErrorMessage s := by
  obtain ⟨n', rfl⟩ : ∃ m, n = m + 1 := ⟨n - 1, (Nat.succ_pred_eq_of_pos hn).symm⟩
  rcases List.exists_cons_of_ne_nil (splitNl_ne_nil s.toList) with ⟨h0, t, hsp⟩
  have hmemt : ∀ p ∈ h0 :: t, '\n' ∉ p := by
    rw [← hsp]; exact splitNl_mem_no_newline s.toList
  have hins : insertAt (n' + 1) l (h0 :: t) = h0 :: (t.take n' ++ l :: t.drop n') := by
    simp [insertAt, List.take_succ_cons, List.drop_succ_cons]
  have hmem2 : ∀ p ∈ h0 :: (t.take n' ++ l :: t.drop n'), '\n' ∉ p := by
    intro p hp
    rcases List.mem_cons.mp hp with rfl | hp
    · exact hmemt p (List.mem_cons_self _ _)
    · rcases List.mem_append.mp hp with hp | hp
      · exact hmemt p (List.mem_cons_of_mem _ (List.mem_of_mem_take hp))
      · rcases List.mem_cons.mp hp with rfl | hp
        · exact hnl
        · exact hmemt p (List.mem_cons_of_mem _ (List.mem_of_mem_drop hp))
  have hrt : splitNl ((String.mk (joinNl (insertAt (n' + 1) l (h0 :: t)))).toList)
      = h0 :: (t.take n' ++ l :: t.drop n') := by
    show splitNl (joinNl (insertAt (n' + 1) l (h0 :: t))) = _
    rw [hins]
    exact splitNl_joinNl _ (by simp) hmem2
  have hstep : (matchEventLine (trimList l)).map buildEntry = none := by
    rcases hl with h | h | h
    · rw [h, matchEventLine_nil]; rfl
    · rw [h, matchEventLine_header]; rfl
    · rw [h]; rfl
  rw [hsp]
  simp only [parseErrorMessage, hrt, hsp, List.drop_succ_cons, List.drop_zero]
  congr 1
  rw [processLines_eq, processLines_eq]
  congr 1
  rw [List.filterMap_append,
    List.filterMap_cons_none (f := fun u => Option.map buildEntry (matchEventLine (trimList u))) hstep,
    ← List.filterMap_append, List.take_append_drop]

theorem skippable_line_insertion_invariant_witness :
    (1 : Nat) ≤ 1 ∧ '\n' ∉ ("junk line" : String).toList ∧
    skippableLine ("junk line".toList) ∧
    parseErrorMessage (String.mk (joinNl (insertAt 1 ("junk line".toList)
        (splitNl ("e\n1: [Contract Event] topics:[a], data:b" : String).toList))))
      = parseErrorMessage "e\n1: [Contract Event] topics:[a], data:b" := by
  refine ⟨by decide, by decide, by decide, ?_⟩
  exact skippable_line_insertion_invariant _ 1 _ (by decide) (by decide)
    (Or.inr (Or.inr (by decide)))

/-- C9: the entry grammar requires at least one character in the topics body
(`topics:\[(.+?)\]`) and in the data body (`data:(.+)$`), so a matched line
always has nonempty groups 4 and 5; in particular a body line with
`topics:[],` or with nothing after `data:` is skipped entirely and produces
no entry. -/
theorem empty_topics_or_data_never_entry :
    (∀ (l : List Char) (g : EntryGroups), matchEventLine l = some g →
      g.g4 ≠ [] ∧ g.g5 ≠ []) ∧
    parseErrorMessage "e\n1: [Diagnostic Event] topics:[], data:x" = ⟨"e", []⟩ ∧
    parseErrorMessage "e\n1: [Diagnostic Event] topics:[a], data:" = ⟨"e", []⟩ := by
  refine ⟨?_, by decide, by decide⟩
  intro l g h
  obtain ⟨-, -, h4, h5, -⟩ := matchEventLine_some h
  exact ⟨h4, h5⟩

theorem empty_topics_or_data_never_entry_witness :
    matchEventLine ("1: [T] topics:[a], data:b".toList)
      = some ⟨['1'], ['T'], none, ['a'], ['b']⟩ ∧
    (['a'] : List Char) ≠ [] ∧ (['b'] : List Char) ≠ [] := by
  have h : matchEventLine ("1: [T] topics:[a], data:b".toList)
      = some ⟨['1'], ['T'], none, ['a'], ['b']⟩ := by decide
  exact ⟨h, empty_topics_or_data_never_entry.1 _ _ h⟩

/-- C10: in the topic splitter, a top-level comma always terminates the
current topic, even when the buffer is empty, while an empty final buffer is
dropped: `"a,,b"` yields `["a", "", "b"]` and `"a,"` yields `["a"]`. -/
theorem comma_always_terminates_final_empty_dropped :
    (∀ (rest cur : List Char) (acc : List String),
      topicSplit (',' :: rest) 0 cur acc
        = topicSplit rest 0 [] (acc ++ [String.mk (trimList cur)])) ∧
    (∀ (bc : Int) (acc : List String), topicSplit [] bc [] acc = acc) ∧
    topicSplit ("a,,b".toList) 0 [] [] = ["a", "", "b"] ∧
    topicSplit ("a,".toList) 0 [] [] = ["a"] := by
  refine ⟨fun rest cur acc => rfl, fun bc acc => rfl, by decide, by decide⟩

end Laina
